import Mathlib

/-!
Verification model of the content aggregation and enrichment pipeline
(posts/collections loader) of the unicorn-utterances repository.

The TypeScript loader is embedded shallowly: file-system inputs become
explicit input lists, JS strings become `String`/`List Char`, JS
`Date` values become `Int` timestamps (the result of parsing the
`published` frontmatter string), and the platform URL parser is an
abstract parameter `String → Option String`.
-/

namespace UU

/-- The ECMAScript whitespace class matched by the regex class used by
`String.prototype.split` and `trim` (WhiteSpace and LineTerminator). -/
def jsWS (c : Char) : Bool :=
  decide (c.toNat = 0x9 ∨ c.toNat = 0xA ∨ c.toNat = 0xB ∨ c.toNat = 0xC ∨
    c.toNat = 0xD ∨ c.toNat = 0x20 ∨ c.toNat = 0xA0 ∨ c.toNat = 0x1680 ∨
    (0x2000 ≤ c.toNat ∧ c.toNat ≤ 0x200A) ∨ c.toNat = 0x2028 ∨
    c.toNat = 0x2029 ∨ c.toNat = 0x202F ∨ c.toNat = 0x205F ∨
    c.toNat = 0x3000 ∨ c.toNat = 0xFEFF)

/-- JS `String.prototype.trim` on the character list of a string. -/
def trimChars (cs : List Char) : List Char :=
  ((cs.dropWhile jsWS).reverse.dropWhile jsWS).reverse

/-- A separator character of the social-handle normalization regex:
the character class `[/@]`. -/
def handleSep (c : Char) : Bool :=
  c = '/' ∨ c = '@'

/-- An ECMAScript LineTerminator, which the regex `.` does not match. -/
def isLineTerm (c : Char) : Bool :=
  decide (c.toNat = 0xA ∨ c.toNat = 0xD ∨ c.toNat = 0x2028 ∨ c.toNat = 0x2029)

/-- Searches for the last separator (`/` or `@`) that is reachable by
`.*` from the start (no line terminator before it) and is not the
final character of the string; returns the suffix after it.  This
matches the replacement of the greedy match of `^.*[/@](?!$)` by the
empty string: `some suffix` when the regex matches, `none` when it
does not. -/
def stripHandleAux : List Char → Option (List Char)
  | [] => none
  | c :: rest =>
    if isLineTerm c then none
    else
      match stripHandleAux rest with
      | some r => some r
      | none => if handleSep c ∧ rest ≠ [] then some rest else none

/-- Core of `normalizeUsername` on a character list: trim, then remove
everything up to and including the last non-final `/` or `@`. -/
def normalizeHandleChars (cs : List Char) : List Char :=
  let t := trimChars cs
  (stripHandleAux t).getD t

/-- `normalizeUsername` from the loader:
`username?.trim()?.replace(/^.*[/@](?!$)/, "")`. -/
def normalizeUsername (username : Option String) : Option String :=
  username.map (fun s => String.mk (normalizeHandleChars s.data))

/-- The social-links record of an author, as mutated by the loader.
`none` models an absent field. -/
structure Socials where
  twitter : Option String
  github : Option String
  gitlab : Option String
  linkedIn : Option String
  twitch : Option String
  dribbble : Option String
  threads : Option String
  cohost : Option String
  mastodon : Option String
  youtube : Option String
deriving DecidableEq, Repr

/-- The eight `normalizeUsername` assignments of the loader. -/
def normalizeSocialNames (s : Socials) : Socials :=
  { s with
    twitter := normalizeUsername s.twitter
    github := normalizeUsername s.github
    gitlab := normalizeUsername s.gitlab
    linkedIn := normalizeUsername s.linkedIn
    twitch := normalizeUsername s.twitch
    dribbble := normalizeUsername s.dribbble
    threads := normalizeUsername s.threads
    cohost := normalizeUsername s.cohost }

/-- The mastodon step of the loader: when the field is truthy it is
replaced by `new URL(value).toString()`, and a parse failure is
rethrown, aborting the build.  `parseURL` abstracts the platform
WHATWG URL parser: `some s` is `new URL(input).toString() = s`,
`none` is a thrown `TypeError`. -/
def applyMastodon (parseURL : String → Option String) (s : Socials) :
    Except String Socials :=
  match s.mastodon with
  | none => .ok s
  | some m =>
    if m = "" then .ok s
    else
      match parseURL m with
      | none => .error m
      | some u => .ok { s with mastodon := some u }

/-- The youtube canonicalization of the loader applied to a truthy
input value. -/
def canonYoutube (y : String) : String :=
  let username := String.mk (normalizeHandleChars y.data)
  if y.data.contains '@' then "https://www.youtube.com/@" ++ username
  else "https://www.youtube.com/channel/" ++ username

/-- The youtube step of the loader: only a truthy value is rewritten. -/
def applyYoutube (s : Socials) : Socials :=
  match s.youtube with
  | none => s
  | some y => if y = "" then s else { s with youtube := some (canonYoutube y) }

/-- The social part of one author's enrichment, in the loader's order:
name normalization, then mastodon validation, then youtube
canonicalization. -/
def enrichSocials (parseURL : String → Option String) (s : Socials) :
    Except String Socials :=
  (applyMastodon parseURL (normalizeSocialNames s)).map applyYoutube

/-- The social enrichment mapped over the author list; a thrown error
for any author aborts the whole list, as the loader's `throw e` does. -/
def enrichAllSocials (parseURL : String → Option String) :
    List Socials → Except String (List Socials)
  | [] => .ok []
  | s :: rest =>
    match enrichSocials parseURL s with
    | .error e => .error e
    | .ok s' =>
      match enrichAllSocials parseURL rest with
      | .error e => .error e
      | .ok rest' => .ok (s' :: rest')

/-- JS `String.prototype.split(".")` on a character list, keeping all
empty fields, accumulating the current field in reverse. -/
def splitOnDotAux : List Char → List Char → List (List Char)
  | [], cur => [cur.reverse]
  | c :: rest, cur =>
    if c = '.' then cur.reverse :: splitOnDotAux rest []
    else splitOnDotAux rest (c :: cur)

/-- JS `name.split(".")`. -/
def splitOnDot (cs : List Char) : List (List Char) :=
  splitOnDotAux cs []

/-- The locale derivation of both aggregators:
`name.split(".").at(-2)` mapped through `lang === "index" ? "en" : lang`.
`none` models the JS `undefined`. -/
def localeOfName (name : String) : Option String :=
  let parts := splitOnDot name.data
  let lang := if parts.length < 2 then none else parts.get? (parts.length - 2)
  lang.map (fun l => if l = "index".data then "en" else String.mk l)

/-- JS `String.prototype.startsWith` on character lists. -/
def listStartsWith : List Char → List Char → Bool
  | [], _ => true
  | _ :: _, [] => false
  | p :: ps, c :: cs => p = c && listStartsWith ps cs

/-- JS `String.prototype.endsWith` on character lists. -/
def listEndsWith (suf cs : List Char) : Bool :=
  listStartsWith suf.reverse cs.reverse

/-- The index-file filter of both aggregators:
`name.startsWith("index.") && name.endsWith(".md")`. -/
def isIndexFile (name : String) : Bool :=
  listStartsWith "index.".data name.data && listEndsWith ".md".data name.data

/-- JS `String.prototype.split(/\s+/)` on a character list: fields are
separated by maximal whitespace runs, and a leading or trailing run
produces an empty field (the empty string splits to one empty field). -/
def jsSplitWSAux : List Char → List Char → List (List Char)
  | [], cur => [cur.reverse]
  | c :: rest, cur =>
    if jsWS c then cur.reverse :: jsSplitWSAux (rest.dropWhile jsWS) []
    else jsSplitWSAux rest (c :: cur)
termination_by cs _ => cs.length
decreasing_by
  · exact Nat.lt_succ_of_le (List.dropWhile_sublist _).length_le
  · exact Nat.lt_succ_self _

/-- JS `contents.split(/\s+/)`. -/
def jsSplitWS (cs : List Char) : List (List Char) :=
  jsSplitWSAux cs []

/-- The word count of the loader: `fileContents.split(/\s+/).length`,
applied to the raw file contents (frontmatter and body together). -/
def wordCount (contents : List Char) : Nat :=
  (jsSplitWS contents).length

/-- The maximal non-whitespace runs of a character list: the
whitespace-separated tokens, with no empty boundary fields. -/
def wsTokens : List Char → List (List Char)
  | [] => []
  | c :: rest =>
    if jsWS c then wsTokens rest
    else (c :: rest.takeWhile (fun d => !jsWS d)) ::
      wsTokens (rest.dropWhile (fun d => !jsWS d))
termination_by cs => cs.length
decreasing_by
  · exact Nat.lt_succ_self _
  · exact Nat.lt_succ_of_le (List.dropWhile_sublist _).length_le

/-- The warning printed for a frontmatter tag missing from the tag
reference set. -/
def tagWarning (slug tag : String) : String :=
  slug ++ ": Tag '" ++ tag ++
    "' is not specified in content/data/tags.json! Filtering..."

/-- The tag validation of the post aggregator: the frontmatter tags
filtered to those in the tag reference set, together with one warning
per dropped tag, in frontmatter order. -/
def validateTags (tagKeys : List String) (slug : String) :
    List String → List String × List String
  | [] => ([], [])
  | t :: rest =>
    let (kept, warns) := validateTags tagKeys slug rest
    if t ∈ tagKeys then (t :: kept, warns)
    else (kept, tagWarning slug t :: warns)

/-- A collection record before the cross-linking pass: the loader types
these as `Omit<CollectionInfo, "posts">`, so no `posts` field exists
yet.  `published` is the parsed publication date. -/
structure CollectionShell where
  slug : String
  locale : Option String
  locales : List (Option String)
  published : Int
deriving DecidableEq, Repr

/-- The frontmatter of one collection index file, as far as the
pipeline claims depend on it. -/
structure RawCollFm where
  published : Int
deriving DecidableEq, Repr

/-- One file of a collection directory: its name and parsed
frontmatter (`gray-matter` is an external collaborator). -/
structure CollFileIn where
  name : String
  fm : RawCollFm
deriving DecidableEq, Repr

/-- One collection directory: the slug and its directory listing. -/
structure CollDirIn where
  slug : String
  files : List CollFileIn
deriving DecidableEq, Repr

/-- `files.map((file, i) => ...)` with the zero-based index. -/
def mapIdxFrom (f : Nat → α → β) : Nat → List α → List β
  | _, [] => []
  | i, a :: as => f i a :: mapIdxFrom f (i + 1) as

/-- The per-directory body of `getCollections`: filter index files,
derive the locale list, and build one record per file, the record at
position `i` taking `locales[i]`. -/
def collectionsOfDir (dir : CollDirIn) : List CollectionShell :=
  let files := dir.files.filter (fun f => isIndexFile f.name)
  let locales := files.map (fun f => localeOfName f.name)
  mapIdxFrom
    (fun i f =>
      { slug := dir.slug
        locale := locales.getD i none
        locales := locales
        published := f.fm.published })
    0 files

/-- The date comparator of both sorts:
`date1 > date2 ? -1 : 1`, on parsed dates. -/
def jsDateCompare (date1 date2 : Int) : Int :=
  if date1 > date2 then -1 else 1

/-- The collection comparator of `allCollections.sort`. -/
def collCmp (collection1 collection2 : CollectionShell) : Int :=
  jsDateCompare collection1.published collection2.published

/-- One insertion of a comparator-directed insertion sort: `x` is
placed before the first element `y` with `cmp x y ≤ 0`. -/
def insertCmp (cmp : α → α → Int) (x : α) : List α → List α
  | [] => [x]
  | y :: ys => if cmp x y ≤ 0 then x :: y :: ys else y :: insertCmp cmp x ys

/-- `Array.prototype.sort(cmp)`, modelled as an insertion sort directed
by the comparator; with the date comparator of the loader this orders
records by non-increasing parsed date. -/
def sortCmp (cmp : α → α → Int) : List α → List α
  | [] => []
  | x :: xs => insertCmp cmp x (sortCmp cmp xs)

/-- `getCollections`: directory-derived records concatenated with the
static collection-mapping records, sorted by the date comparator. -/
def getCollections (dirs : List CollDirIn)
    (mapping : List CollectionShell) : List CollectionShell :=
  sortCmp collCmp ((dirs.map collectionsOfDir).flatten ++ mapping)

/-- The frontmatter of one post index file, as far as the pipeline
claims depend on it. -/
structure RawPostFm where
  published : Int
  tags : List String
  collection : Option String
deriving DecidableEq, Repr

/-- One file of a post directory: name, raw contents, and parsed
frontmatter. -/
structure PostFileIn where
  name : String
  contents : List Char
  fm : RawPostFm
deriving DecidableEq, Repr

/-- One post directory: the slug and its directory listing. -/
structure PostDirIn where
  slug : String
  files : List PostFileIn
deriving DecidableEq, Repr

/-- A built post record, with the fields the claims depend on.
`bannerImg = none` models the absent field. -/
structure PostRec where
  slug : String
  locale : Option String
  locales : List (Option String)
  published : Int
  collection : Option String
  tags : List String
  wordCount : Nat
  collectionMeta : Option CollectionShell
  socialImg : String
  bannerImg : Option String
deriving DecidableEq, Repr

/-- The `collectionMeta` lookup of the post aggregator:
`frontmatter.collection && collections.find((c) => c.slug === frontmatter.collection)`;
a falsy `collection` short-circuits, and a failed `find` is absent. -/
def findCollectionMeta (shells : List CollectionShell)
    (collection : Option String) : Option CollectionShell :=
  match collection with
  | none => none
  | some col => if col = "" then none else shells.find? (fun c => c.slug = col)

/-- The per-directory body of `getPosts`: filter index files, derive
the locale list, and build one record per file. -/
def postsOfDir (tagKeys : List String) (shells : List CollectionShell)
    (dir : PostDirIn) : List PostRec :=
  let files := dir.files.filter (fun f => isIndexFile f.name)
  let locales := files.map (fun f => localeOfName f.name)
  mapIdxFrom
    (fun i f =>
      { slug := dir.slug
        locale := locales.getD i none
        locales := locales
        published := f.fm.published
        collection := f.fm.collection
        tags := (validateTags tagKeys dir.slug f.fm.tags).1
        wordCount := wordCount f.contents
        collectionMeta := findCollectionMeta shells f.fm.collection
        socialImg := "/generated/" ++ dir.slug ++ ".twitter-preview.jpg"
        bannerImg := none })
    0 files

/-- The post comparator of `posts.sort`. -/
def postCmp (post1 post2 : PostRec) : Int :=
  jsDateCompare post1.published post2.published

/-- The banner path assigned by the pagination pass. -/
def bannerPath (slug : String) : String :=
  "/generated/" ++ slug ++ ".banner.jpg"

/-- Lookup in the model of the `paginationCount` object: the latest
entry for the key wins. -/
def lookupLoc (m : List (Option String × Nat)) (loc : Option String) :
    Option Nat :=
  (m.find? (fun e => e.1 = loc)).map (fun e => e.2)

/-- The pagination pass of `getPosts`:
`count = paginationCount[locale] + 1 || 0` is `0` on the first post of
a locale (`undefined + 1` is `NaN`) and the stored count plus one
afterwards; posts whose `count % 8` is `0` or `4` get a `bannerImg`. -/
def bannerPassAux : List (Option String × Nat) → List PostRec → List PostRec
  | _, [] => []
  | m, p :: rest =>
    let count := match lookupLoc m p.locale with
      | none => 0
      | some n => n + 1
    let m' := (p.locale, count) :: m
    let index := count % 8
    let p' := if index = 0 ∨ index = 4
      then { p with bannerImg := some (bannerPath p.slug) }
      else p
    p' :: bannerPassAux m' rest

/-- The pagination pass started with an empty counter object. -/
def bannerPass (posts : List PostRec) : List PostRec :=
  bannerPassAux [] posts

/-- `getPosts`: per-directory records, sorted by the date comparator,
then run through the pagination pass. -/
def getPosts (tagKeys : List String) (shells : List CollectionShell)
    (dirs : List PostDirIn) : List PostRec :=
  bannerPass (sortCmp postCmp ((dirs.map (postsOfDir tagKeys shells)).flatten))

/-- A collection record after cross-linking, now carrying `posts`. -/
structure Collection extends CollectionShell where
  posts : List PostRec
deriving DecidableEq, Repr

/-- The cross-linking pass:
`collections.map((c) => ({ ...c, posts: posts.filter((p) => p.collection === c.slug) }))`.
It builds new records from the shells; the post list itself is not
touched. -/
def linkCollections (shells : List CollectionShell)
    (posts : List PostRec) : List Collection :=
  shells.map (fun c =>
    { toCollectionShell := c
      posts := posts.filter (fun p => p.collection = some c.slug) })

/-- A post with its banner image assigned. -/
def withBannerSet (p : PostRec) : PostRec :=
  { p with bannerImg := some (bannerPath p.slug) }

/-- Reference form of the pagination pass, counting with an explicit
per-locale counter function. -/
def bannerSpecMap (cnt : Option String → Nat) : List PostRec → List PostRec
  | [] => []
  | p :: rest =>
    (if cnt p.locale % 8 = 0 ∨ cnt p.locale % 8 = 4 then withBannerSet p else p) ::
      bannerSpecMap
        (fun loc => if loc = p.locale then cnt p.locale + 1 else cnt loc) rest

/-- The counter-object encoding: a locale with `k` processed posts is
stored as `k - 1`, and an untouched locale is absent. -/
def countEnc : Nat → Option Nat
  | 0 => none
  | Nat.succ k => some k

/-- A concrete collection shell used by witnesses. -/
def shellA : CollectionShell :=
  ⟨"my-series", some "en", [some "en"], 5⟩

/-- A concrete post record used by witnesses. -/
def postA : PostRec :=
  ⟨"p1", some "en", [some "en"], 9, some "my-series", [], 3, none,
    "/generated/p1.twitter-preview.jpg", none⟩

/-- A minimal post record for concrete banner examples. -/
def mkPost (slug : String) (pub : Int) : PostRec :=
  ⟨slug, some "en", [some "en"], pub, none, [], 1, none, "", none⟩

/-- Nine posts of one locale, already in descending date order. -/
def postsNine : List PostRec :=
  [mkPost "s0" 90, mkPost "s1" 80, mkPost "s2" 70, mkPost "s3" 60,
    mkPost "s4" 50, mkPost "s5" 40, mkPost "s6" 30, mkPost "s7" 20,
    mkPost "s8" 10]

/-- A concrete one-file post directory used by the C10 witness. -/
def dirB : PostDirIn :=
  ⟨"p1", [⟨"index.md", "hi".data, ⟨9, [], some "my-series"⟩⟩]⟩

/-- The post record the aggregation builds from `dirB`. -/
def postB : PostRec :=
  { slug := "p1", locale := some "en", locales := [some "en"],
    published := 9, collection := some "my-series", tags := [],
    wordCount := wordCount "hi".data,
    collectionMeta := findCollectionMeta [shellA] (some "my-series"),
    socialImg := "/generated/" ++ "p1" ++ ".twitter-preview.jpg",
    bannerImg := some (bannerPath "p1") }

/-! ## General helper lemmas -/

theorem mapIdxFrom_length (f : Nat → α → β) (j : Nat) (l : List α) :
    (mapIdxFrom f j l).length = l.length := by
  induction l generalizing j with
  | nil => rfl
  | cons a as ih => simp [mapIdxFrom, ih]

theorem mapIdxFrom_get? (f : Nat → α → β) (j i : Nat) (l : List α) :
    (mapIdxFrom f j l).get? i = (l.get? i).map (f (j + i)) := by
  induction l generalizing j i with
  | nil => simp [mapIdxFrom]
  | cons a as ih =>
    cases i with
    | zero => simp [mapIdxFrom]
    | succ k =>
      simp only [mapIdxFrom, List.get?]
      rw [ih (j + 1) k]
      have harith : j + 1 + k = j + (k + 1) := by omega
      rw [harith]

theorem mem_mapIdxFrom {f : Nat → α → β} {b : β} :
    ∀ {j : Nat} {l : List α}, b ∈ mapIdxFrom f j l → ∃ i a, a ∈ l ∧ b = f i a := by
  intro j l
  induction l generalizing j with
  | nil => intro h; simp [mapIdxFrom] at h
  | cons a as ih =>
    intro h
    simp only [mapIdxFrom, List.mem_cons] at h
    rcases h with h | h
    · exact ⟨j, a, List.mem_cons_self a as, h⟩
    · obtain ⟨i, x, hx, hb⟩ := ih h
      exact ⟨i, x, List.mem_cons_of_mem a hx, hb⟩

theorem stripHandleAux_eq_none (cs : List Char)
    (h : ∀ c ∈ cs, handleSep c = false) : stripHandleAux cs = none := by
  induction cs with
  | nil => rfl
  | cons c rest ih =>
    have hc : handleSep c = false := h c (List.mem_cons_self c rest)
    have hrest := ih (fun d hd => h d (List.mem_cons_of_mem c hd))
    by_cases hl : isLineTerm c <;> simp [stripHandleAux, hrest, hc, hl]

theorem stringDataInj {s t : String} (h : s.data = t.data) : s = t := by
  cases s; cases t; simp_all

/-! ## C3 — social handle normalization -/

/-- C3 (counterexample): normalizing `"github.com/torvalds/"` yields
`"torvalds/"`, not `"torvalds"`: the regex lookahead refuses a match
that ends at the end of the string, so the trailing slash survives. -/
theorem social_normalization_cex :
    normalizeUsername (some "github.com/torvalds/") = some "torvalds/" ∧
    normalizeUsername (some "github.com/torvalds/") ≠ some "torvalds" := by
  constructor
  · rfl
  · decide

/-- C3 (amended): for every social handle field among twitter, github,
gitlab, linkedIn, twitch, dribbble, threads and cohost, the stored
value is `normalizeUsername` of the input; normalization is the
identity on already-trimmed handles containing no `/` or `@`
(so it is idempotent on bare handles); `"https://github.com/torvalds"`
and `"@torvalds"` normalize to `"torvalds"`, while
`"github.com/torvalds/"` normalizes to `"torvalds/"` (the trailing
slash survives); empty and absent values pass through unchanged. -/
theorem social_normalization :
    (∀ s : String, trimChars s.data = s.data →
      (∀ c ∈ s.data, handleSep c = false) →
      normalizeUsername (some s) = some s) ∧
    normalizeUsername (some "https://github.com/torvalds") = some "torvalds" ∧
    normalizeUsername (some "@torvalds") = some "torvalds" ∧
    normalizeUsername (some "github.com/torvalds/") = some "torvalds/" ∧
    normalizeUsername (some "") = some "" ∧
    normalizeUsername none = none ∧
    (∀ (parseURL : String → Option String) (s s' : Socials),
      enrichSocials parseURL s = .ok s' →
      s'.twitter = normalizeUsername s.twitter ∧
      s'.github = normalizeUsername s.github ∧
      s'.gitlab = normalizeUsername s.gitlab ∧
      s'.linkedIn = normalizeUsername s.linkedIn ∧
      s'.twitch = normalizeUsername s.twitch ∧
      s'.dribbble = normalizeUsername s.dribbble ∧
      s'.threads = normalizeUsername s.threads ∧
      s'.cohost = normalizeUsername s.cohost) := by
  refine ⟨?_, rfl, rfl, rfl, rfl, rfl, ?_⟩
  · intro s htrim hsep
    simp only [normalizeUsername, Option.map_some']
    congr 1
    apply stringDataInj
    simp only [normalizeHandleChars, htrim, stripHandleAux_eq_none s.data hsep,
      Option.getD_none]
  · intro parseURL s s' h
    simp only [enrichSocials, Except.map] at h
    rcases hm : applyMastodon parseURL (normalizeSocialNames s) with e | t
    · rw [hm] at h; cases h
    · rw [hm] at h
      have hs' : s' = applyYoutube t := by
        cases h; rfl
      have ht : t.twitter = (normalizeSocialNames s).twitter ∧
          t.github = (normalizeSocialNames s).github ∧
          t.gitlab = (normalizeSocialNames s).gitlab ∧
          t.linkedIn = (normalizeSocialNames s).linkedIn ∧
          t.twitch = (normalizeSocialNames s).twitch ∧
          t.dribbble = (normalizeSocialNames s).dribbble ∧
          t.threads = (normalizeSocialNames s).threads ∧
          t.cohost = (normalizeSocialNames s).cohost := by
        unfold applyMastodon at hm
        rcases hmm : (normalizeSocialNames s).mastodon with _ | m
        · rw [hmm] at hm
          cases hm
          exact ⟨rfl, rfl, rfl, rfl, rfl, rfl, rfl, rfl⟩
        · rw [hmm] at hm
          by_cases hme : m = ""
          · simp only [hme, if_pos rfl] at hm
            cases hm
            exact ⟨rfl, rfl, rfl, rfl, rfl, rfl, rfl, rfl⟩
          · simp only [if_neg hme] at hm
            rcases hp : parseURL m with _ | u
            · rw [hp] at hm; cases hm
            · rw [hp] at hm
              cases hm
              exact ⟨rfl, rfl, rfl, rfl, rfl, rfl, rfl, rfl⟩
      have hy : (applyYoutube t).twitter = t.twitter ∧
          (applyYoutube t).github = t.github ∧
          (applyYoutube t).gitlab = t.gitlab ∧
          (applyYoutube t).linkedIn = t.linkedIn ∧
          (applyYoutube t).twitch = t.twitch ∧
          (applyYoutube t).dribbble = t.dribbble ∧
          (applyYoutube t).threads = t.threads ∧
          (applyYoutube t).cohost = t.cohost := by
        unfold applyYoutube
        rcases t.youtube with _ | y
        · exact ⟨rfl, rfl, rfl, rfl, rfl, rfl, rfl, rfl⟩
        · by_cases hy : y = "" <;> simp [hy]
      subst hs'
      simp only [hy.1, hy.2.1, hy.2.2.1, hy.2.2.2.1, hy.2.2.2.2.1,
        hy.2.2.2.2.2.1, hy.2.2.2.2.2.2.1, hy.2.2.2.2.2.2.2,
        ht.1, ht.2.1, ht.2.2.1, ht.2.2.2.1, ht.2.2.2.2.1,
        ht.2.2.2.2.2.1, ht.2.2.2.2.2.2.1, ht.2.2.2.2.2.2.2]
      exact ⟨rfl, rfl, rfl, rfl, rfl, rfl, rfl, rfl⟩

/-- C3 witness: the amended theorem applied to the bare handle
`"torvalds"` and to a concrete successful enrichment. -/
theorem social_normalization_witness :
    normalizeUsername (some "torvalds") = some "torvalds" ∧
    (⟨some "@torvalds", none, none, none, none, none, none, none, none,
        none⟩ : Socials).github = none :=
  ⟨social_normalization.1 "torvalds" (by decide) (by decide),
    (social_normalization.2.2.2.2.2.2 (fun _ => none)
      ⟨some "@torvalds", none, none, none, none, none, none, none, none, none⟩
      ⟨some "torvalds", none, none, none, none, none, none, none, none, none⟩
      rfl).2.1⟩

/-! ## C4 — youtube canonicalization -/

theorem ytFormsNe (u v : String) :
    "https://www.youtube.com/@" ++ u ≠ "https://www.youtube.com/channel/" ++ v := by
  intro h
  have hd := congrArg String.data h
  rw [String.data_append, String.data_append] at hd
  have h24 := congrArg (fun l => l.get? 24) hd
  simp only at h24
  rw [List.get?_append (by decide), List.get?_append (by decide)] at h24
  exact absurd h24 (by decide)

/-- C4: for a present, non-empty youtube social the stored value is
`canonYoutube` of the input; an input containing `@` yields
`https://www.youtube.com/@{h}` with `h` the normalized bare handle, an
input without `@` yields `https://www.youtube.com/channel/{id}` with
`id` the normalized value (so `"channel/UC123"` maps to
`https://www.youtube.com/channel/UC123`, with no doubled `channel/`),
and the two output forms are mutually exclusive. -/
theorem youtube_canonicalization :
    (∀ (s : Socials) (y : String), s.youtube = some y → y ≠ "" →
      (applyYoutube s).youtube = some (canonYoutube y)) ∧
    (∀ y : String, '@' ∈ y.data →
      canonYoutube y =
        "https://www.youtube.com/@" ++ String.mk (normalizeHandleChars y.data)) ∧
    (∀ y : String, '@' ∉ y.data →
      canonYoutube y =
        "https://www.youtube.com/channel/" ++
          String.mk (normalizeHandleChars y.data)) ∧
    (∀ u v : String,
      "https://www.youtube.com/@" ++ u ≠ "https://www.youtube.com/channel/" ++ v) ∧
    canonYoutube "@somechannel" = "https://www.youtube.com/@somechannel" ∧
    canonYoutube "channel/UC123" = "https://www.youtube.com/channel/UC123" := by
  refine ⟨?_, ?_, ?_, ytFormsNe, rfl, rfl⟩
  · intro s y hy hne
    simp [applyYoutube, hy, hne]
  · intro y h
    simp [canonYoutube, h]
  · intro y h
    simp [canonYoutube, h]

/-- C4 witness: a concrete author record whose youtube social is
`"@somechannel"` stores the canonical handle URL. -/
theorem youtube_canonicalization_witness :
    (applyYoutube
      ⟨none, none, none, none, none, none, none, none, none,
        some "@somechannel"⟩).youtube = some (canonYoutube "@somechannel") :=
  youtube_canonicalization.1
    ⟨none, none, none, none, none, none, none, none, none, some "@somechannel"⟩
    "@somechannel" rfl (by decide)

/-! ## C5 — mastodon validation -/

theorem normalizeSocialNames_mastodon (s : Socials) :
    (normalizeSocialNames s).mastodon = s.mastodon := rfl

theorem applyYoutube_mastodon (t : Socials) :
    (applyYoutube t).mastodon = t.mastodon := by
  unfold applyYoutube
  rcases t.youtube with _ | y
  · rfl
  · by_cases hy : y = "" <;> simp [hy]

/-- C5: an absent mastodon social never fails and stays absent; a
present, non-empty value that the URL parser rejects makes the
author's enrichment throw, and the whole author list build aborts; a
value the parser accepts is stored as the parser's canonical output
(`new URL(input).toString()`). -/
theorem mastodon_validation :
    (∀ (parseURL : String → Option String) (s : Socials),
      s.mastodon = none →
      ∃ s', enrichSocials parseURL s = .ok s' ∧ s'.mastodon = none) ∧
    (∀ (parseURL : String → Option String) (s : Socials) (m : String),
      s.mastodon = some m → m ≠ "" → parseURL m = none →
      enrichSocials parseURL s = .error m) ∧
    (∀ (parseURL : String → Option String) (s : Socials) (m u : String),
      s.mastodon = some m → m ≠ "" → parseURL m = some u →
      ∃ s', enrichSocials parseURL s = .ok s' ∧ s'.mastodon = some u) ∧
    (∀ (parseURL : String → Option String) (us : List Socials)
      (s : Socials) (m : String),
      s ∈ us → s.mastodon = some m → m ≠ "" → parseURL m = none →
      ∀ res, enrichAllSocials parseURL us ≠ .ok res) := by
  have herr : ∀ (parseURL : String → Option String) (s : Socials) (m : String),
      s.mastodon = some m → m ≠ "" → parseURL m = none →
      enrichSocials parseURL s = .error m := by
    intro parseURL s m hm hne hp
    have hm' : (normalizeSocialNames s).mastodon = some m := by
      rw [normalizeSocialNames_mastodon, hm]
    simp [enrichSocials, applyMastodon, hm', hne, hp, Except.map]
  refine ⟨?_, herr, ?_, ?_⟩
  · intro parseURL s hm
    have hm' : (normalizeSocialNames s).mastodon = none := by
      rw [normalizeSocialNames_mastodon, hm]
    refine ⟨applyYoutube (normalizeSocialNames s), ?_, ?_⟩
    · simp [enrichSocials, applyMastodon, hm', Except.map]
    · rw [applyYoutube_mastodon, hm']
  · intro parseURL s m u hm hne hp
    have hm' : (normalizeSocialNames s).mastodon = some m := by
      rw [normalizeSocialNames_mastodon, hm]
    refine ⟨applyYoutube { normalizeSocialNames s with mastodon := some u }, ?_, ?_⟩
    · simp [enrichSocials, applyMastodon, hm', hne, hp, Except.map]
    · rw [applyYoutube_mastodon]
  · intro parseURL us s m hmem hm hne hp res
    induction us generalizing res with
    | nil => cases hmem
    | cons a as ih =>
      rcases List.mem_cons.mp hmem with heq | hmem'
      · subst heq
        simp [enrichAllSocials, herr parseURL s m hm hne hp]
      · intro hok
        simp only [enrichAllSocials] at hok
        rcases ha : enrichSocials parseURL a with e | a'
        · rw [ha] at hok; cases hok
        · rw [ha] at hok
          rcases has : enrichAllSocials parseURL as with e | as'
          · rw [has] at hok; cases hok
          · exact ih hmem' as' has

/-- C5 witness: a concrete author with the unparseable mastodon value
`"not a url"` aborts the whole two-author build. -/
theorem mastodon_validation_witness :
    ∀ res, enrichAllSocials (fun _ => none)
      [⟨none, none, none, none, none, none, none, none, none, none⟩,
       ⟨none, none, none, none, none, none, none, none, some "not a url", none⟩] ≠
      .ok res :=
  fun res => mastodon_validation.2.2.2 (fun _ => none) _
    ⟨none, none, none, none, none, none, none, none, some "not a url", none⟩
    "not a url" (by simp) rfl (by decide) rfl res

/-! ## C6 — tag filtering -/

/-- C6: the emitted tag list is the frontmatter tag list filtered to
the tag reference set, in order (a sublist); each dropped tag produces
one warning naming the post slug and the tag; a post with unknown tags
is still emitted — the post aggregator builds exactly one record per
index file regardless of its tags. -/
theorem tag_filtering :
    (∀ (tagKeys : List String) (slug : String) (fmTags : List String),
      (validateTags tagKeys slug fmTags).1 =
        fmTags.filter (fun t => decide (t ∈ tagKeys)) ∧
      (validateTags tagKeys slug fmTags).2 =
        (fmTags.filter (fun t => decide (t ∉ tagKeys))).map (tagWarning slug) ∧
      List.Sublist (validateTags tagKeys slug fmTags).1 fmTags) ∧
    (∀ slug tag : String, tagWarning slug tag =
      slug ++ ": Tag '" ++ tag ++
        "' is not specified in content/data/tags.json! Filtering...") ∧
    (∀ (tagKeys : List String) (shells : List CollectionShell) (dir : PostDirIn),
      (postsOfDir tagKeys shells dir).length =
        (dir.files.filter (fun f => isIndexFile f.name)).length) ∧
    (validateTags ["valid-tag"] "post-slug" ["valid-tag", "bogus-tag"]).1 =
      ["valid-tag"] := by
  have hfilters : ∀ (tagKeys : List String) (slug : String) (fmTags : List String),
      (validateTags tagKeys slug fmTags).1 =
        fmTags.filter (fun t => decide (t ∈ tagKeys)) ∧
      (validateTags tagKeys slug fmTags).2 =
        (fmTags.filter (fun t => decide (t ∉ tagKeys))).map (tagWarning slug) := by
    intro tagKeys slug fmTags
    induction fmTags with
    | nil => exact ⟨rfl, rfl⟩
    | cons t rest ih =>
      by_cases ht : t ∈ tagKeys
      · simp [validateTags, ht, ih.1, ih.2, List.filter]
      · simp [validateTags, ht, ih.1, ih.2, List.filter]
  refine ⟨fun tagKeys slug fmTags =>
      ⟨(hfilters tagKeys slug fmTags).1, (hfilters tagKeys slug fmTags).2, ?_⟩,
    fun _ _ => rfl, ?_, by decide⟩
  · rw [(hfilters tagKeys slug fmTags).1]
    exact List.filter_sublist fmTags
  · intro tagKeys shells dir
    unfold postsOfDir
    rw [mapIdxFrom_length]

/-! ## C8 — cross-linking -/

/-- C8: cross-linking attaches to each collection exactly the posts
whose `collection` frontmatter equals the collection's slug, as a
sublist of the post list (so in its order); every shell yields one
linked record; a collection with no matching posts gets `posts = []`,
an empty field rather than an absent one. -/
theorem cross_linking :
    ∀ (shells : List CollectionShell) (posts : List PostRec),
      (linkCollections shells posts).length = shells.length ∧
      (∀ shell ∈ shells,
        ({ toCollectionShell := shell,
           posts := posts.filter
             (fun p => p.collection = some shell.slug) } : Collection) ∈
          linkCollections shells posts) ∧
      (∀ c ∈ linkCollections shells posts,
        c.toCollectionShell ∈ shells ∧
        c.posts = posts.filter (fun p => p.collection = some c.slug) ∧
        List.Sublist c.posts posts ∧
        (∀ p, p ∈ c.posts ↔ p ∈ posts ∧ p.collection = some c.slug) ∧
        ((∀ p ∈ posts, p.collection ≠ some c.slug) → c.posts = [])) := by
  intro shells posts
  refine ⟨by simp [linkCollections], ?_, ?_⟩
  · intro shell hshell
    exact List.mem_map.mpr ⟨shell, hshell, rfl⟩
  · intro c hc
    obtain ⟨shell, hshell, hc'⟩ := List.mem_map.mp hc
    subst hc'
    refine ⟨hshell, rfl, List.filter_sublist posts, ?_, ?_⟩
    · intro p
      rw [List.mem_filter]
      simp
    · intro hnone
      rw [List.filter_eq_nil_iff]
      intro p hp
      simpa using hnone p hp

/-- C8 witness: the linked record of a concrete one-shell, one-post
input is a member of the cross-linked list. -/
theorem cross_linking_witness :
    ({ toCollectionShell := shellA,
       posts := [postA].filter
         (fun p => p.collection = some shellA.slug) } : Collection) ∈
      linkCollections [shellA] [postA] :=
  (cross_linking [shellA] [postA]).2.1 shellA (List.mem_cons_self shellA [])

/-! ## C7 — locale/file correspondence -/

theorem splitOnDotAux_noDot (xs : List Char) (h : ∀ c ∈ xs, c ≠ '.') :
    ∀ cur, splitOnDotAux xs cur = [cur.reverse ++ xs] := by
  induction xs with
  | nil => intro cur; simp [splitOnDotAux]
  | cons x xs' ih =>
    intro cur
    have hx : x ≠ '.' := h x (List.mem_cons_self x xs')
    rw [splitOnDotAux, if_neg hx, ih (fun c hc => h c (List.mem_cons_of_mem x hc))]
    simp

theorem splitOnDotAux_dot (xs ys : List Char) (h : ∀ c ∈ xs, c ≠ '.') :
    ∀ cur, splitOnDotAux (xs ++ '.' :: ys) cur =
      (cur.reverse ++ xs) :: splitOnDotAux ys [] := by
  induction xs with
  | nil => intro cur; simp [splitOnDotAux]
  | cons x xs' ih =>
    intro cur
    have hx : x ≠ '.' := h x (List.mem_cons_self x xs')
    rw [List.cons_append, splitOnDotAux, if_neg hx,
      ih (fun c hc => h c (List.mem_cons_of_mem x hc))]
    simp

theorem localeOfName_en : localeOfName "index.md" = some "en" := by decide

theorem localeOfName_locale (loc : String) (hdot : ∀ c ∈ loc.data, c ≠ '.')
    (hix : loc ≠ "index") :
    localeOfName ("index." ++ loc ++ ".md") = some loc := by
  have hdata : ("index." ++ loc ++ ".md").data =
      "index".data ++ '.' :: (loc.data ++ '.' :: "md".data) := by
    have h1 : "index.".data = "index".data ++ ['.'] := by decide
    have h2 : ".md".data = '.' :: "md".data := by decide
    rw [String.data_append, String.data_append, h1, h2]
    simp
  have hidx : ∀ c ∈ "index".data, c ≠ '.' := by decide
  have hmd : ∀ c ∈ "md".data, c ≠ '.' := by decide
  have hparts : splitOnDot ("index." ++ loc ++ ".md").data =
      ["index".data, loc.data, "md".data] := by
    rw [splitOnDot, hdata, splitOnDotAux_dot "index".data _ hidx,
      splitOnDotAux_dot loc.data _ hdot, splitOnDotAux_noDot "md".data hmd]
    simp
  have hne : loc.data ≠ "index".data := fun hc => hix (stringDataInj hc)
  simp only [localeOfName, hparts]
  simp [hne]

/-- C7: for each collection or post directory, the locale list is
derived positionwise from the filtered index-file list (same length),
and the record built at position `i` carries `locales[i]`, the locale
of the file at position `i`; `index.md` maps to locale `en` and
`index.<locale>.md` to that locale. -/
theorem locale_file_correspondence :
    (∀ dir : CollDirIn,
      ((dir.files.filter (fun f => isIndexFile f.name)).map
          (fun f => localeOfName f.name)).length =
        (dir.files.filter (fun f => isIndexFile f.name)).length ∧
      (collectionsOfDir dir).length =
        (dir.files.filter (fun f => isIndexFile f.name)).length ∧
      (∀ (i : Nat) (f : CollFileIn),
        (dir.files.filter (fun f => isIndexFile f.name)).get? i = some f →
        (collectionsOfDir dir).get? i = some
          { slug := dir.slug
            locale := localeOfName f.name
            locales := (dir.files.filter (fun f => isIndexFile f.name)).map
              (fun f => localeOfName f.name)
            published := f.fm.published })) ∧
    (∀ (tagKeys : List String) (shells : List CollectionShell) (dir : PostDirIn),
      ((dir.files.filter (fun f => isIndexFile f.name)).map
          (fun f => localeOfName f.name)).length =
        (dir.files.filter (fun f => isIndexFile f.name)).length ∧
      (postsOfDir tagKeys shells dir).length =
        (dir.files.filter (fun f => isIndexFile f.name)).length ∧
      (∀ (i : Nat) (f : PostFileIn),
        (dir.files.filter (fun f => isIndexFile f.name)).get? i = some f →
        (postsOfDir tagKeys shells dir).get? i = some
          { slug := dir.slug
            locale := localeOfName f.name
            locales := (dir.files.filter (fun f => isIndexFile f.name)).map
              (fun f => localeOfName f.name)
            published := f.fm.published
            collection := f.fm.collection
            tags := (validateTags tagKeys dir.slug f.fm.tags).1
            wordCount := wordCount f.contents
            collectionMeta := findCollectionMeta shells f.fm.collection
            socialImg := "/generated/" ++ dir.slug ++ ".twitter-preview.jpg"
            bannerImg := none })) ∧
    localeOfName "index.md" = some "en" ∧
    (∀ loc : String, (∀ c ∈ loc.data, c ≠ '.') → loc ≠ "index" →
      localeOfName ("index." ++ loc ++ ".md") = some loc) := by
  have hgetD : ∀ {α β : Type} (l : List α) (g : α → Option β) (i : Nat) (f : α),
      l.get? i = some f → (l.map g).getD i none = g f := by
    intro α β l g i f h
    rw [List.getD_eq_get?, List.get?_map, h]
    rfl
  refine ⟨?_, ?_, localeOfName_en, localeOfName_locale⟩
  · intro dir
    refine ⟨by simp, by unfold collectionsOfDir; rw [mapIdxFrom_length], ?_⟩
    intro i f hf
    unfold collectionsOfDir
    rw [mapIdxFrom_get?, hf, Nat.zero_add]
    simp only [Option.map_some']
    congr 1
    rw [hgetD _ _ i f hf]
  · intro tagKeys shells dir
    refine ⟨by simp, by unfold postsOfDir; rw [mapIdxFrom_length], ?_⟩
    intro i f hf
    unfold postsOfDir
    rw [mapIdxFrom_get?, hf, Nat.zero_add]
    simp only [Option.map_some']
    congr 1
    rw [hgetD _ _ i f hf]

/-- C7 witness: a concrete two-file post directory whose second file
is `index.fr.md`; its record at position 1 carries locale `fr`, and
the locale-pattern conjunct applied at `"fr"`. -/
theorem locale_file_correspondence_witness :
    localeOfName ("index." ++ "fr" ++ ".md") = some "fr" ∧
    ((postsOfDir [] []
      ⟨"a-post", [⟨"index.md", "x".data, ⟨3, [], none⟩⟩,
        ⟨"index.fr.md", "y".data, ⟨3, [], none⟩⟩]⟩).get? 1).map
        (fun p => p.locale) = some (some "fr") := by
  constructor
  · exact locale_file_correspondence.2.2.2 "fr" (by decide) (by decide)
  · rw [(locale_file_correspondence.2.1 [] []
      ⟨"a-post", [⟨"index.md", "x".data, ⟨3, [], none⟩⟩,
        ⟨"index.fr.md", "y".data, ⟨3, [], none⟩⟩]⟩).2.2 1
      ⟨"index.fr.md", "y".data, ⟨3, [], none⟩⟩ (by decide)]
    decide

/-! ## C1 — date-descending sort and its comparator -/

theorem chain'_insertCmp (cmp : α → α → Int) (R : α → α → Prop)
    (h1 : ∀ a b, cmp a b ≤ 0 → R a b) (h2 : ∀ a b, ¬ cmp a b ≤ 0 → R b a)
    (x : α) : ∀ l : List α, List.Chain' R l → List.Chain' R (insertCmp cmp x l) := by
  intro l
  induction l with
  | nil => intro _; simp [insertCmp]
  | cons y ys ih =>
    intro hch
    rw [insertCmp]
    by_cases hxy : cmp x y ≤ 0
    · rw [if_pos hxy]
      exact List.chain'_cons.mpr ⟨h1 x y hxy, hch⟩
    · rw [if_neg hxy]
      have hys : List.Chain' R ys := hch.tail
      have hins := ih hys
      cases ys with
      | nil =>
        simp only [insertCmp]
        exact List.chain'_cons.mpr ⟨h2 x y hxy, List.chain'_singleton x⟩
      | cons z zs =>
        rw [insertCmp]
        by_cases hxz : cmp x z ≤ 0
        · rw [if_pos hxz]
          refine List.chain'_cons.mpr ⟨h2 x y hxy, ?_⟩
          rw [insertCmp, if_pos hxz] at hins
          exact hins
        · rw [if_neg hxz]
          refine List.chain'_cons.mpr ⟨List.chain'_cons.mp hch |>.1, ?_⟩
          rw [insertCmp, if_neg hxz] at hins
          exact hins

theorem chain'_sortCmp (cmp : α → α → Int) (R : α → α → Prop)
    (h1 : ∀ a b, cmp a b ≤ 0 → R a b) (h2 : ∀ a b, ¬ cmp a b ≤ 0 → R b a) :
    ∀ l : List α, List.Chain' R (sortCmp cmp l) := by
  intro l
  induction l with
  | nil => simp [sortCmp]
  | cons x xs ih => exact chain'_insertCmp cmp R h1 h2 x (sortCmp cmp xs) ih

theorem bannerPassAux_map_published :
    ∀ (ps : List PostRec) (m : List (Option String × Nat)),
      (bannerPassAux m ps).map (fun p => p.published) =
        ps.map (fun p => p.published) := by
  intro ps
  induction ps with
  | nil => intro m; rfl
  | cons p rest ih =>
    intro m
    simp only [bannerPassAux, List.map_cons]
    split <;> simp [ih]

theorem postCmp_le_zero {a b : PostRec} (h : postCmp a b ≤ 0) :
    b.published ≤ a.published := by
  by_cases hlt : a.published > b.published
  · omega
  · simp [postCmp, jsDateCompare, hlt] at h

theorem postCmp_pos {a b : PostRec} (h : ¬ postCmp a b ≤ 0) :
    a.published ≤ b.published := by
  by_cases hlt : a.published > b.published
  · simp [postCmp, jsDateCompare, hlt] at h
  · omega

theorem collCmp_le_zero {a b : CollectionShell} (h : collCmp a b ≤ 0) :
    b.published ≤ a.published := by
  by_cases hlt : a.published > b.published
  · omega
  · simp [collCmp, jsDateCompare, hlt] at h

theorem collCmp_pos {a b : CollectionShell} (h : ¬ collCmp a b ≤ 0) :
    a.published ≤ b.published := by
  by_cases hlt : a.published > b.published
  · simp [collCmp, jsDateCompare, hlt] at h
  · omega

/-- C1: in both the collection sort and the post sort the comparator
returns `-1` exactly when the first record's parsed published date is
strictly later, and `1` otherwise — never `0`; in particular equal
dates always yield `1`, reporting the second operand as later; and the
lists produced by the sorts (and by the full aggregators) are ordered
by non-increasing published date. -/
theorem sort_comparator_desc :
    (∀ p1 p2 : PostRec,
      (p2.published < p1.published → postCmp p1 p2 = -1) ∧
      (¬ p2.published < p1.published → postCmp p1 p2 = 1) ∧
      postCmp p1 p2 ≠ 0 ∧
      (p1.published = p2.published → postCmp p1 p2 = 1)) ∧
    (∀ c1 c2 : CollectionShell,
      (c2.published < c1.published → collCmp c1 c2 = -1) ∧
      (¬ c2.published < c1.published → collCmp c1 c2 = 1) ∧
      collCmp c1 c2 ≠ 0 ∧
      (c1.published = c2.published → collCmp c1 c2 = 1)) ∧
    (∀ l : List PostRec,
      List.Chain' (fun a b => b.published ≤ a.published) (sortCmp postCmp l)) ∧
    (∀ l : List CollectionShell,
      List.Chain' (fun a b => b.published ≤ a.published) (sortCmp collCmp l)) ∧
    (∀ (tagKeys : List String) (shells : List CollectionShell)
      (dirs : List PostDirIn),
      List.Chain' (fun a b => b.published ≤ a.published)
        (getPosts tagKeys shells dirs)) ∧
    (∀ (dirs : List CollDirIn) (mapping : List CollectionShell),
      List.Chain' (fun a b => b.published ≤ a.published)
        (getCollections dirs mapping)) := by
  have hpost : ∀ l : List PostRec,
      List.Chain' (fun a b => b.published ≤ a.published) (sortCmp postCmp l) :=
    chain'_sortCmp postCmp _ (fun _ _ h => postCmp_le_zero h)
      (fun _ _ h => postCmp_pos h)
  have hcoll : ∀ l : List CollectionShell,
      List.Chain' (fun a b => b.published ≤ a.published) (sortCmp collCmp l) :=
    chain'_sortCmp collCmp _ (fun _ _ h => collCmp_le_zero h)
      (fun _ _ h => collCmp_pos h)
  refine ⟨?_, ?_, hpost, hcoll, ?_, ?_⟩
  · intro p1 p2
    by_cases hlt : p1.published > p2.published <;>
      simp [postCmp, jsDateCompare, hlt] <;> omega
  · intro c1 c2
    by_cases hlt : c1.published > c2.published <;>
      simp [collCmp, jsDateCompare, hlt] <;> omega
  · intro tagKeys shells dirs
    unfold getPosts bannerPass
    have key : ∀ lst : List PostRec,
        List.Chain' (fun x y : Int => y ≤ x) (lst.map (fun p => p.published)) ↔
          List.Chain' (fun a b : PostRec => b.published ≤ a.published) lst :=
      fun lst =>
        @List.chain'_map Int PostRec (fun x y => y ≤ x) (fun p => p.published) lst
    have hmap := bannerPassAux_map_published
      (sortCmp postCmp ((dirs.map (postsOfDir tagKeys shells)).flatten)) []
    refine (key _).mp ?_
    rw [hmap]
    exact (key _).mpr (hpost _)
  · intro dirs mapping
    exact hcoll _

/-- C1 witness: two concrete posts with equal published dates compare
as `1` (the second operand is reported later), and the comparator is
`-1` on a strictly later first date. -/
theorem sort_comparator_desc_witness :
    postCmp postA postA = 1 ∧
    postCmp { postA with published := 10 } postA = -1 :=
  ⟨(sort_comparator_desc.1 postA postA).2.2.2 rfl,
    (sort_comparator_desc.1 { postA with published := 10 } postA).1 (by decide)⟩

/-! ## C2 — banner assignment by per-locale pagination position -/

theorem bannerPassAux_eq_spec :
    ∀ (ps : List PostRec) (m : List (Option String × Nat))
      (cnt : Option String → Nat),
      (∀ loc, lookupLoc m loc = countEnc (cnt loc)) →
      bannerPassAux m ps = bannerSpecMap cnt ps := by
  intro ps
  induction ps with
  | nil => intro m cnt _; rfl
  | cons p rest ih =>
    intro m cnt h
    have hcount : (match lookupLoc m p.locale with
        | none => 0
        | some n => n + 1) = cnt p.locale := by
      rw [h p.locale]
      cases hc : cnt p.locale <;> simp [countEnc]
    simp only [bannerPassAux, bannerSpecMap]
    rw [hcount]
    congr 1
    apply ih
    intro loc
    by_cases hl : p.locale = loc
    · subst hl
      simp [lookupLoc, List.find?, countEnc]
    · rw [lookupLoc, List.find?_cons_of_neg _ (by simpa using hl),
        if_neg (fun hh => hl hh.symm)]
      exact h loc

theorem bannerSpecMap_get? :
    ∀ (ps : List PostRec) (cnt : Option String → Nat) (i : Nat) (p : PostRec),
      ps.get? i = some p →
      (bannerSpecMap cnt ps).get? i = some
        (if (cnt p.locale +
              ((ps.take i).filter (fun q => q.locale = p.locale)).length) % 8 = 0 ∨
            (cnt p.locale +
              ((ps.take i).filter (fun q => q.locale = p.locale)).length) % 8 = 4
          then withBannerSet p else p) := by
  intro ps
  induction ps with
  | nil => intro cnt i p h; cases h
  | cons q rest ih =>
    intro cnt i p h
    cases i with
    | zero =>
      have hqp : q = p := by simpa using h
      subst hqp
      simp [bannerSpecMap]
    | succ j =>
      have hj : rest.get? j = some p := by simpa using h
      simp only [bannerSpecMap, List.get?]
      rw [ih _ j p hj]
      have harith :
          (fun loc => if loc = q.locale then cnt q.locale + 1 else cnt loc) p.locale +
            ((rest.take j).filter (fun r => r.locale = p.locale)).length =
          cnt p.locale +
            (((q :: rest).take (j + 1)).filter
              (fun r => r.locale = p.locale)).length := by
        simp only [List.take_succ_cons, List.filter_cons]
        by_cases hql : q.locale = p.locale
        · simp [hql, if_pos]
          omega
        · have hql' : ¬ p.locale = q.locale := fun hh => hql hh.symm
          simp [hql, hql']
      rw [harith]

theorem bannerPass_length (ps : List PostRec) :
    (bannerPass ps).length = ps.length := by
  have h := congrArg List.length (bannerPassAux_map_published ps [])
  simpa using h

/-- C2: the pagination pass maintains a zero-based per-locale counter
over the posts in order; the post at zero-based rank `r` within its
locale gets `bannerImg = /generated/{slug}.banner.jpg` when
`r % 8 = 0` or `r % 8 = 4`, and its `bannerImg` stays absent
otherwise. -/
theorem banner_positions :
    ∀ posts : List PostRec, (∀ p ∈ posts, p.bannerImg = none) →
    ∀ (i : Nat) (p : PostRec), posts.get? i = some p →
      (bannerPass posts).length = posts.length ∧
      ((bannerPass posts).get? i =
        if (((posts.take i).filter (fun q => q.locale = p.locale)).length) % 8 = 0 ∨
            (((posts.take i).filter (fun q => q.locale = p.locale)).length) % 8 = 4
          then some { p with bannerImg := some (bannerPath p.slug) }
          else some p) ∧
      (((bannerPass posts).get? i).map (fun q => q.bannerImg) =
        if (((posts.take i).filter (fun q => q.locale = p.locale)).length) % 8 = 0 ∨
            (((posts.take i).filter (fun q => q.locale = p.locale)).length) % 8 = 4
          then some (some (bannerPath p.slug))
          else some none) := by
  intro posts h0 i p hp
  have hspec : bannerPass posts = bannerSpecMap (fun _ => 0) posts :=
    bannerPassAux_eq_spec posts [] (fun _ => 0) (fun _ => rfl)
  have hget := bannerSpecMap_get? posts (fun _ => 0) i p hp
  simp only [Nat.zero_add] at hget
  have hmain : (bannerPass posts).get? i =
      if (((posts.take i).filter (fun q => q.locale = p.locale)).length) % 8 = 0 ∨
          (((posts.take i).filter (fun q => q.locale = p.locale)).length) % 8 = 4
        then some { p with bannerImg := some (bannerPath p.slug) }
        else some p := by
    rw [hspec, hget]
    by_cases hcond :
        (((posts.take i).filter (fun q => q.locale = p.locale)).length) % 8 = 0 ∨
          (((posts.take i).filter (fun q => q.locale = p.locale)).length) % 8 = 4
    · simp [hcond, withBannerSet]
    · simp [hcond]
  refine ⟨bannerPass_length posts, hmain, ?_⟩
  rw [hmain]
  have hpmem : p ∈ posts := by
    have := List.get?_eq_some.mp hp
    obtain ⟨hlt, hg⟩ := this
    exact hg ▸ List.get_mem posts i hlt
  by_cases hcond :
      (((posts.take i).filter (fun q => q.locale = p.locale)).length) % 8 = 0 ∨
        (((posts.take i).filter (fun q => q.locale = p.locale)).length) % 8 = 4
  · simp [hcond]
  · simp [hcond, h0 p hpmem]

/-- C2 witness: with 9 posts in one locale, the post at zero-based
position 8 receives a banner image and the post at position 5 does
not. -/
theorem banner_positions_witness :
    (bannerPass postsNine).get? 8 =
      some { mkPost "s8" 10 with bannerImg := some (bannerPath "s8") } ∧
    (bannerPass postsNine).get? 5 = some (mkPost "s5" 40) := by
  have h8 := (banner_positions postsNine (by decide) 8
    (mkPost "s8" 10) (by decide)).2.1
  have h5 := (banner_positions postsNine (by decide) 5
    (mkPost "s5" 40) (by decide)).2.1
  constructor
  · rw [h8]; decide
  · rw [h5]; decide

/-! ## C9 — word count -/

theorem wsTokens_dropWhile_ws : ∀ cs : List Char,
    wsTokens (cs.dropWhile jsWS) = wsTokens cs := by
  intro cs
  induction cs with
  | nil => rfl
  | cons c rest ih =>
    by_cases hc : jsWS c
    · rw [List.dropWhile_cons_of_pos hc, ih]
      simp only [wsTokens, if_pos hc]
    · rw [List.dropWhile_cons_of_neg hc]

theorem dropWhile_getLast? (p : Char → Bool) :
    ∀ cs : List Char, cs.dropWhile p ≠ [] →
      (cs.dropWhile p).getLast? = cs.getLast? := by
  intro cs
  induction cs with
  | nil => intro h; exact absurd rfl h
  | cons c rest ih =>
    intro h
    by_cases hc : p c
    · rw [List.dropWhile_cons_of_pos hc] at h ⊢
      have hrne : rest ≠ [] := by
        intro hr; rw [hr] at h; exact h rfl
      rw [ih h]
      cases hr : rest with
      | nil => exact absurd hr hrne
      | cons a as => rw [List.getLast?_cons_cons]
    · rw [List.dropWhile_cons_of_neg hc]

theorem head_dropWhile_false (p : α → Bool) :
    ∀ (cs : List α) (x : α) (xs : List α),
      cs.dropWhile p = x :: xs → p x = false := by
  intro cs
  induction cs with
  | nil => intro x xs h; cases h
  | cons c rest ih =>
    intro x xs h
    by_cases hc : p c
    · rw [List.dropWhile_cons_of_pos hc] at h
      exact ih x xs h
    · rw [List.dropWhile_cons_of_neg hc] at h
      cases h
      exact Bool.eq_false_iff.mpr hc

theorem optionAllSome {f : Char → Bool} {o : Option Char} {x : Char}
    (h : o.all f = true) (hx : o = some x) : f x = true := by
  rw [hx] at h
  simpa using h

theorem jsSplitWSAux_length_eq :
    ∀ (n : Nat) (cs cur : List Char), cs.length ≤ n →
      cs.getLast?.all (fun c => !jsWS c) = true →
      (jsSplitWSAux cs cur).length =
        1 + (wsTokens (cs.dropWhile (fun c => !jsWS c))).length := by
  intro n
  induction n with
  | zero =>
    intro cs cur hlen _
    have hnil : cs = [] := List.length_eq_zero.mp (Nat.le_zero.mp hlen)
    subst hnil
    simp [jsSplitWSAux, wsTokens, List.dropWhile]
  | succ n ih =>
    intro cs cur hlen hlast
    cases cs with
    | nil => simp [jsSplitWSAux, wsTokens, List.dropWhile]
    | cons c rest =>
      by_cases hc : jsWS c
      · have hrne : rest ≠ [] := by
          intro hr
          subst hr
          have := optionAllSome hlast (show [c].getLast? = some c by simp)
          simp [hc] at this
        have hlne : rest.dropWhile jsWS ≠ [] := by
          intro hnil
          have hall := List.dropWhile_eq_nil_iff.mp hnil
          obtain ⟨x, hx⟩ : ∃ x, rest.getLast? = some x := by
            cases hr : rest with
            | nil => exact absurd hr hrne
            | cons a as =>
              cases ho : (a :: as).getLast? with
              | none => exact absurd (List.getLast?_eq_none_iff.mp ho) (by simp)
              | some x => exact ⟨x, rfl⟩
          have hxcs : (c :: rest).getLast? = some x := by
            cases hr : rest with
            | nil => exact absurd hr hrne
            | cons a as =>
              rw [hr] at hx
              rw [List.getLast?_cons_cons]
              exact hx
          have hxws : jsWS x = true := hall x (List.mem_of_mem_getLast? hx)
          have := optionAllSome hlast hxcs
          simp [hxws] at this
        simp only [jsSplitWSAux, if_pos hc, List.length_cons]
        have hlastl : (rest.dropWhile jsWS).getLast?.all (fun c => !jsWS c) = true := by
          rw [dropWhile_getLast? jsWS rest hlne]
          cases hr : rest with
          | nil => exact absurd hr hrne
          | cons a as =>
            rw [hr] at hlast
            rw [List.getLast?_cons_cons] at hlast
            exact hlast
        have hlenl : (rest.dropWhile jsWS).length ≤ n := by
          have h1 : (rest.dropWhile jsWS).length ≤ rest.length :=
            (List.dropWhile_sublist jsWS).length_le
          have h2 : rest.length ≤ n := by
            simp only [List.length_cons] at hlen
            omega
          omega
        rw [ih _ [] hlenl hlastl]
        have hstop : (c :: rest).dropWhile (fun d => !jsWS d) = c :: rest :=
          List.dropWhile_cons_of_neg (by simp [hc])
        rw [hstop]
        have h1 : wsTokens (c :: rest) = wsTokens rest := by
          simp only [wsTokens, if_pos hc]
        rw [h1, ← wsTokens_dropWhile_ws rest]
        obtain ⟨x, xs, hl⟩ : ∃ x xs, rest.dropWhile jsWS = x :: xs := by
          cases hll : rest.dropWhile jsWS with
          | nil => exact absurd hll hlne
          | cons x xs => exact ⟨x, xs, rfl⟩
        have hx : jsWS x = false := head_dropWhile_false jsWS rest x xs hl
        rw [hl]
        have h2 : wsTokens (x :: xs) =
            (x :: xs.takeWhile (fun d => !jsWS d)) ::
              wsTokens (xs.dropWhile (fun d => !jsWS d)) := by
          simp only [wsTokens, hx]
          simp
        have h3 : (x :: xs).dropWhile (fun d => !jsWS d) =
            xs.dropWhile (fun d => !jsWS d) :=
          List.dropWhile_cons_of_pos (by simp [hx])
        rw [h2, h3]
        simp only [List.length_cons]
        omega
      · have hstep : jsSplitWSAux (c :: rest) cur = jsSplitWSAux rest (c :: cur) := by
          simp only [jsSplitWSAux, if_neg hc]
        rw [hstep]
        cases rest with
        | nil =>
          simp [jsSplitWSAux, wsTokens, List.dropWhile, hc]
        | cons a as =>
          have hlast' : (a :: as).getLast?.all (fun c => !jsWS c) = true := by
            rw [List.getLast?_cons_cons] at hlast
            exact hlast
          have hlen' : (a :: as).length ≤ n := by
            simp only [List.length_cons] at hlen ⊢
            omega
          rw [ih (a :: as) (c :: cur) hlen' hlast']
          have h3 : (c :: a :: as).dropWhile (fun d => !jsWS d) =
              (a :: as).dropWhile (fun d => !jsWS d) :=
            List.dropWhile_cons_of_pos (by simp [hc])
          rw [h3]

/-- C9 (counterexample): the contents `"hello world\n"` have 2
whitespace-separated tokens, but the loader's word count — the length
of the JS `split(/\s+/)` result — is 3, because the trailing newline
contributes an empty final field. -/
theorem word_count_cex :
    wordCount "hello world\n".data = 3 ∧
    (wsTokens "hello world\n".data).length = 2 ∧
    wordCount "hello world\n".data ≠ (wsTokens "hello world\n".data).length := by
  have h1 : wordCount "hello world\n".data = 3 := by
    simp [wordCount, jsSplitWS, jsSplitWSAux, jsWS]
  have h2 : (wsTokens "hello world\n".data).length = 2 := by
    simp [wsTokens, jsWS, List.takeWhile, List.dropWhile]
  refine ⟨h1, h2, ?_⟩
  rw [h1, h2]
  decide

/-- C9 (amended): every post's `wordCount` is the length of the JS
`split(/\s+/)` of its raw file contents; this equals the number of
whitespace-separated tokens whenever the contents are non-empty and
neither start nor end with a whitespace character (a leading or
trailing whitespace run — e.g. a final newline — adds one extra empty
field each). -/
theorem word_count_tokens :
    (∀ (tagKeys : List String) (shells : List CollectionShell)
      (dir : PostDirIn) (p : PostRec), p ∈ postsOfDir tagKeys shells dir →
      ∃ f ∈ dir.files, isIndexFile f.name = true ∧
        p.wordCount = wordCount f.contents) ∧
    (∀ cs : List Char, cs ≠ [] →
      cs.head?.all (fun c => !jsWS c) = true →
      cs.getLast?.all (fun c => !jsWS c) = true →
      wordCount cs = (wsTokens cs).length) := by
  constructor
  · intro tagKeys shells dir p hp
    unfold postsOfDir at hp
    obtain ⟨i, f, hf, hpf⟩ := mem_mapIdxFrom hp
    obtain ⟨hfmem, hfidx⟩ := List.mem_filter.mp hf
    exact ⟨f, hfmem, hfidx, by rw [hpf]⟩
  · intro cs hne hhead hlast
    cases cs with
    | nil => exact absurd rfl hne
    | cons c rest =>
      have hc : jsWS c = false := by
        have := optionAllSome hhead (show (c :: rest).head? = some c by simp)
        simpa using this
      unfold wordCount jsSplitWS
      rw [jsSplitWSAux_length_eq (c :: rest).length (c :: rest) [] le_rfl hlast]
      have h3 : (c :: rest).dropWhile (fun d => !jsWS d) =
          rest.dropWhile (fun d => !jsWS d) :=
        List.dropWhile_cons_of_pos (by simp [hc])
      have h2 : wsTokens (c :: rest) =
          (c :: rest.takeWhile (fun d => !jsWS d)) ::
            wsTokens (rest.dropWhile (fun d => !jsWS d)) := by
        simp only [wsTokens, hc]
        simp
      rw [h3, h2]
      simp only [List.length_cons]
      omega

/-- C9 witness: the amended theorem applied to the one-word contents
`"hello"`. -/
theorem word_count_tokens_witness :
    wordCount "hello".data = (wsTokens "hello".data).length :=
  word_count_tokens.2 "hello".data (by decide) (by decide) (by decide)

/-! ## C10 — cross-linking never touches the embedded collection copies -/

theorem mem_insertCmp {cmp : α → α → Int} {x a : α} :
    ∀ {l : List α}, a ∈ insertCmp cmp x l → a = x ∨ a ∈ l := by
  intro l
  induction l with
  | nil =>
    intro h
    simp [insertCmp] at h
    exact Or.inl h
  | cons y ys ih =>
    intro h
    rw [insertCmp] at h
    by_cases hxy : cmp x y ≤ 0
    · rw [if_pos hxy] at h
      rcases List.mem_cons.mp h with h1 | h1
      · exact Or.inl h1
      · exact Or.inr h1
    · rw [if_neg hxy] at h
      rcases List.mem_cons.mp h with h1 | h1
      · exact Or.inr (h1 ▸ List.mem_cons_self y ys)
      · rcases ih h1 with h2 | h2
        · exact Or.inl h2
        · exact Or.inr (List.mem_cons_of_mem y h2)

theorem mem_sortCmp {cmp : α → α → Int} {a : α} :
    ∀ {l : List α}, a ∈ sortCmp cmp l → a ∈ l := by
  intro l
  induction l with
  | nil => intro h; simp [sortCmp] at h
  | cons x xs ih =>
    intro h
    rw [sortCmp] at h
    rcases mem_insertCmp h with h1 | h1
    · exact h1 ▸ List.mem_cons_self x xs
    · exact List.mem_cons_of_mem x (ih h1)

theorem bannerPassAux_shape :
    ∀ (ps : List PostRec) (m : List (Option String × Nat)) (q : PostRec),
      q ∈ bannerPassAux m ps → ∃ p ∈ ps, q = p ∨ q = withBannerSet p := by
  intro ps
  induction ps with
  | nil => intro m q h; simp [bannerPassAux] at h
  | cons p rest ih =>
    intro m q h
    simp only [bannerPassAux] at h
    rcases List.mem_cons.mp h with h1 | h1
    · refine ⟨p, List.mem_cons_self p rest, ?_⟩
      by_cases hcond : (match lookupLoc m p.locale with
          | none => 0
          | some n => n + 1) % 8 = 0 ∨
          (match lookupLoc m p.locale with
          | none => 0
          | some n => n + 1) % 8 = 4
      · rw [if_pos hcond] at h1
        exact Or.inr h1
      · rw [if_neg hcond] at h1
        exact Or.inl h1
    · obtain ⟨p', hp', hq⟩ := ih _ q h1
      exact ⟨p', List.mem_cons_of_mem p hp', hq⟩

/-- C10: every `collectionMeta` embedded in a post of the full post
aggregation is the pre-linking lookup against the collection-shell
list (`Omit<CollectionInfo, "posts">` records, which carry no `posts`
field), so it is one of the pre-linking shells; cross-linking builds
new full collection records from the shells and the post list, leaving
the copies embedded in posts untouched. -/
theorem collection_meta_frame :
    ∀ (tagKeys : List String) (shells : List CollectionShell)
      (dirs : List PostDirIn),
      (∀ p ∈ getPosts tagKeys shells dirs,
        p.collectionMeta = findCollectionMeta shells p.collection ∧
        (∀ c, p.collectionMeta = some c → c ∈ shells)) ∧
      (∀ (posts : List PostRec), ∀ c ∈ linkCollections shells posts,
        c.toCollectionShell ∈ shells ∧
        c.posts = posts.filter (fun p => p.collection = some c.slug)) := by
  intro tagKeys shells dirs
  have hfind : ∀ (col : Option String) (c : CollectionShell),
      findCollectionMeta shells col = some c → c ∈ shells := by
    intro col c h
    cases col with
    | none => cases h
    | some s =>
      by_cases hs : s = ""
      · simp [findCollectionMeta, hs] at h
      · simp only [findCollectionMeta, if_neg hs] at h
        exact List.mem_of_find?_eq_some h
  constructor
  · intro p hp
    unfold getPosts bannerPass at hp
    obtain ⟨p0, hp0, hshape⟩ := bannerPassAux_shape _ [] p hp
    have hp0' : p0 ∈ (dirs.map (postsOfDir tagKeys shells)).flatten :=
      mem_sortCmp hp0
    obtain ⟨sub, hsub, hp0sub⟩ := List.mem_flatten.mp hp0'
    obtain ⟨dir, _, hsubdir⟩ := List.mem_map.mp hsub
    subst hsubdir
    unfold postsOfDir at hp0sub
    obtain ⟨i, f, _, hbuild⟩ := mem_mapIdxFrom hp0sub
    have hmeta : p.collectionMeta = p0.collectionMeta ∧
        p.collection = p0.collection := by
      rcases hshape with h | h <;> subst h <;> exact ⟨rfl, rfl⟩
    have hpc : p.collectionMeta = findCollectionMeta shells p.collection := by
      rw [hmeta.1, hmeta.2, hbuild]
    refine ⟨hpc, ?_⟩
    intro c hc
    exact hfind p.collection c (by rw [← hpc]; exact hc)
  · intro posts c hc
    obtain ⟨shell, hshell, hcs⟩ := List.mem_map.mp hc
    subst hcs
    exact ⟨hshell, rfl⟩

/-- C10 witness: the embedded collection copy of a concrete aggregated
post equals the pre-linking shell lookup, and that shell is among the
pre-linking shells. -/
theorem collection_meta_frame_witness :
    postB.collectionMeta = findCollectionMeta [shellA] postB.collection ∧
    shellA ∈ [shellA] := by
  have hmem : postB ∈ getPosts [] [shellA] [dirB] := by
    have heq : getPosts [] [shellA] [dirB] = [postB] := rfl
    rw [heq]
    exact List.mem_singleton.mpr rfl
  have h := (collection_meta_frame [] [shellA] [dirB]).1 postB hmem
  exact ⟨h.1, h.2 shellA rfl⟩

end UU
